import Mathlib

/-!
Shallow embedding of the ledger engine in `src/src/main.rs` (structs
`Transaction`, `BlockHeader`, `Block`, `Blockchain` and their methods).

Modelling conventions:
* Bytes are `Nat` values (`< 256` where it matters); `Vec<u8>` is `List Nat`.
* The SHA-256 primitive of the `sha2` crate is an external dependency of the
  repository, so it is a parameter `sha256 : String → List Nat` (the 32-byte
  digest of the UTF-8 bytes of a string); `format! "{:x}"` of a digest is
  `hexEncode` of that byte list.
* The Ed25519 primitives of the `ed25519_dalek` crate are likewise a
  parameter, bundled in `Ed25519Model`.
* `f64` amounts only ever enter the code through their `Display` rendering
  (`format! "{}"`), so a transaction's `amount` is modelled by that rendered
  decimal string (`50.0` renders as `"50"`).
* Machine integers are `Nat`/`Int`; the `as u32` cast on the chain length and
  the `u64` nonce increment keep their wrap-around (`% 2 ^ 32`, `% 2 ^ 64`).
* The unbounded proof-of-work `while` loop takes a fuel argument; exhausting
  the fuel is the distinguished outcome `MineOut.fuelOut`, and the string
  slice `self.hash[..difficulty]` going out of range (a Rust panic) is the
  distinguished outcome `MineOut.panic`.
* `Utc::now().timestamp()` is an external input, passed as a parameter.
-/

namespace BTCRust

/-! ### The `hex` crate: lowercase encoding, decoding of upper or lower hex -/

/-- `hex::encode` of a byte list, as the list of characters: each byte becomes
two lowercase hex digits, high nibble first. -/
def hexEncodeList : List Nat → List Char
  | [] => []
  | b :: rest => Nat.digitChar (b / 16) :: Nat.digitChar (b % 16) :: hexEncodeList rest

/-- `hex::encode` of a byte list. -/
def hexEncode (bs : List Nat) : String :=
  String.mk (hexEncodeList bs)

/-- Value of one hex digit; `hex::decode` accepts both cases. -/
def hexDigitVal (c : Char) : Option Nat :=
  if '0' ≤ c ∧ c ≤ '9' then some (c.toNat - '0'.toNat)
  else if 'a' ≤ c ∧ c ≤ 'f' then some (c.toNat - 'a'.toNat + 10)
  else if 'A' ≤ c ∧ c ≤ 'F' then some (c.toNat - 'A'.toNat + 10)
  else none

/-- `hex::decode` on a character list: fails on odd length or a non-hex
character, otherwise produces one byte per digit pair. -/
def hexDecodeList : List Char → Option (List Nat)
  | [] => some []
  | [_] => none
  | c1 :: c2 :: rest => do
    let hi ← hexDigitVal c1
    let lo ← hexDigitVal c2
    let bs ← hexDecodeList rest
    pure ((16 * hi + lo) :: bs)

/-- `hex::decode` of a string. -/
def hexDecode (s : String) : Option (List Nat) :=
  hexDecodeList s.data

/-! ### `Transaction` -/

/-- `struct Transaction` (src/src/main.rs:13-19); `amount` is the `Display`
rendering of the `f64` field. -/
structure Transaction where
  sender : String
  receiver : String
  amount : String
  signature : Option String
deriving DecidableEq

/-- The `format!("{}{}{}", self.sender, self.receiver, self.amount)` data that
`Transaction::calculate_hash` feeds to SHA-256 (src/src/main.rs:24). -/
def Transaction.txData (tx : Transaction) : String :=
  tx.sender ++ tx.receiver ++ tx.amount

/-- `Transaction::calculate_hash` (src/src/main.rs:23-28): the 32-byte SHA-256
digest of the concatenated fields. -/
def Transaction.calculate_hash (sha256 : String → List Nat) (tx : Transaction) : List Nat :=
  sha256 tx.txData

/-- The `ed25519_dalek` primitives used by the source, abstracted:
`sign k m` is `SigningKey::sign` (64 signature bytes), `pubkeyBytes k` the
32 public-key bytes whose hex is a sender address, `fromBytesOk bs` whether
`VerifyingKey::from_bytes` succeeds on `bs`, and `verify pk m sig` whether
`VerifyingKey::verify` accepts signature bytes `sig` on message `m` under the
key decoded from `pk`. -/
structure Ed25519Model (K : Type) where
  sign : K → List Nat → List Nat
  pubkeyBytes : K → List Nat
  fromBytesOk : List Nat → Bool
  verify : List Nat → List Nat → List Nat → Bool

/-- `Transaction::sign` (src/src/main.rs:31-35): store the lowercase hex of
the Ed25519 signature over the transaction hash. -/
def Transaction.sign {K : Type} (E : Ed25519Model K) (sha256 : String → List Nat)
    (k : K) (tx : Transaction) : Transaction :=
  { tx with signature := some (hexEncode (E.sign k (tx.calculate_hash sha256))) }

/-- `Transaction::is_valid` (src/src/main.rs:38-76). `"System"` senders are
accepted unconditionally; otherwise every decode step fails closed. -/
def Transaction.is_valid {K : Type} (E : Ed25519Model K) (sha256 : String → List Nat)
    (tx : Transaction) : Bool :=
  if tx.sender = "System" then true
  else
    match tx.signature with
    | none => false
    | some sigHex =>
      match hexDecode tx.sender with
      | none => false
      | some pkBytes =>
        if pkBytes.length = 32 then
          if E.fromBytesOk pkBytes then
            match hexDecode sigHex with
            | none => false
            | some sigBytes =>
              if sigBytes.length = 64 then
                E.verify pkBytes (tx.calculate_hash sha256) sigBytes
              else false
          else false
        else false

/-! ### `BlockHeader` -/

/-- `struct BlockHeader` (src/src/main.rs:80-86): `index : u32`,
`timestamp : i64`, `nonce : u64`. -/
structure BlockHeader where
  index : Nat
  timestamp : Int
  merkle_root : String
  previous_hash : String
  nonce : Nat
deriving DecidableEq

/-- The concatenated field data hashed by `BlockHeader::calculate_hash`
(src/src/main.rs:90-93). -/
def BlockHeader.headerData (h : BlockHeader) : String :=
  toString h.index ++ toString h.timestamp ++ h.merkle_root ++ h.previous_hash ++ toString h.nonce

/-- `BlockHeader::calculate_hash` (src/src/main.rs:89-97): lowercase hex of
the SHA-256 digest of the concatenated header fields. -/
def BlockHeader.calculate_hash (sha256 : String → List Nat) (h : BlockHeader) : String :=
  hexEncode (sha256 h.headerData)

/-! ### `Block` and the Merkle reduction -/

/-- `struct Block` (src/src/main.rs:100-105). -/
structure Block where
  header : BlockHeader
  hash : String
  transactions : List Transaction
deriving DecidableEq

/-- The inner `for i in (0..hashes.len()).step_by(2)` pairing loop of
`Block::calculate_merkle_root` (src/src/main.rs:146-151): hash the
concatenation of each adjacent pair.  It is only ever applied to lists of
even length (the loop body first pads the level to even length). -/
def pairHashes (sha256 : String → List Nat) : List String → List String
  | a :: b :: rest => hexEncode (sha256 (a ++ b)) :: pairHashes sha256 rest
  | _ => []

/-- One iteration of the `while hashes.len() > 1` body
(src/src/main.rs:140-153): duplicate the last node when the level is odd,
then pair adjacent nodes.  The `""` default of `getLastD` is unreachable
(`hashes.last().unwrap()` runs on a nonempty level). -/
def merkleLevel (sha256 : String → List Nat) (hs : List String) : List String :=
  pairHashes sha256 (if hs.length % 2 ≠ 0 then hs ++ [hs.getLastD ""] else hs)

theorem pairHashes_length (sha256 : String → List Nat) :
    ∀ hs : List String, (pairHashes sha256 hs).length = hs.length / 2
  | [] => by simp [pairHashes]
  | [_] => by simp [pairHashes]
  | _ :: _ :: rest => by
    simp only [pairHashes, List.length_cons, pairHashes_length sha256 rest]
    omega

theorem merkleLevel_length_lt (sha256 : String → List Nat) (hs : List String)
    (h : 1 < hs.length) : (merkleLevel sha256 hs).length < hs.length := by
  simp only [merkleLevel, pairHashes_length]
  by_cases hpar : hs.length % 2 = 0
  · simp only [hpar, ne_eq, not_true_eq_false, if_false]
    omega
  · simp only [ne_eq, hpar, not_false_eq_true, if_true, List.length_append,
      List.length_cons, List.length_nil]
    omega

/-- The `while hashes.len() > 1` loop of `Block::calculate_merkle_root`
(src/src/main.rs:140-153), returning the final `hashes[0]`.  The `""`
default is unreachable: the loop is entered on a nonempty list and every
level of a nonempty list is nonempty. -/
def merkleLoop (sha256 : String → List Nat) (hs : List String) : String :=
  if h : 1 < hs.length then merkleLoop sha256 (merkleLevel sha256 hs)
  else hs.headD ""
termination_by hs.length
decreasing_by exact merkleLevel_length_lt sha256 hs h

/-- `Block::calculate_merkle_root` (src/src/main.rs:130-156): hex leaf hashes
of the transactions, sentinel `"0"` when empty, else pairwise reduction. -/
def Block.calculate_merkle_root (sha256 : String → List Nat)
    (transactions : List Transaction) : String :=
  let hashes := transactions.map fun tx => hexEncode (tx.calculate_hash sha256)
  if hashes.isEmpty then "0"
  else merkleLoop sha256 hashes

/-- `Block::new` (src/src/main.rs:108-127); the wall-clock `timestamp` is an
external input. -/
def Block.new (sha256 : String → List Nat) (index : Nat)
    (transactions : List Transaction) (previous_hash : String) (timestamp : Int) : Block :=
  let header : BlockHeader :=
    { index := index
      timestamp := timestamp
      merkle_root := Block.calculate_merkle_root sha256 transactions
      previous_hash := previous_hash
      nonce := 0 }
  { header := header, hash := header.calculate_hash sha256, transactions := transactions }

/-! ### Proof-of-work sealing -/

/-- Outcome of running a loop that Rust does not bound: a result, a panic
(string slice out of range), or exhaustion of the modelling fuel. -/
inductive MineOut (α : Type) where
  | ok (a : α)
  | panic
  | fuelOut
deriving DecidableEq

/-- The `while &self.hash[..difficulty] != target` loop of `Block::mine`
(src/src/main.rs:158-165).  The slice panics when `difficulty` exceeds the
hash length; otherwise the loop exits once the first `difficulty` characters
are `'0'`, and each pass increments the `u64` nonce (wrapping) and recomputes
the hash.  `fuel` bounds the number of increments. -/
def mineLoop (sha256 : String → List Nat) (difficulty : Nat) (fuel : Nat)
    (header : BlockHeader) (hash : String) : MineOut (BlockHeader × String) :=
  if hash.data.length < difficulty then MineOut.panic
  else if hash.data.take difficulty = List.replicate difficulty '0' then
    MineOut.ok (header, hash)
  else
    match fuel with
    | 0 => MineOut.fuelOut
    | fuel + 1 =>
      let header2 : BlockHeader := { header with nonce := (header.nonce + 1) % 2 ^ 64 }
      mineLoop sha256 difficulty fuel header2 (header2.calculate_hash sha256)

/-- `Block::mine` (src/src/main.rs:158-165) on a whole block. -/
def Block.mine (b : Block) (sha256 : String → List Nat) (difficulty fuel : Nat) :
    MineOut Block :=
  match mineLoop sha256 difficulty fuel b.header b.hash with
  | MineOut.ok (h, s) => MineOut.ok { header := h, hash := s, transactions := b.transactions }
  | MineOut.panic => MineOut.panic
  | MineOut.fuelOut => MineOut.fuelOut

/-! ### `Blockchain` -/

/-- `struct Blockchain` (src/src/main.rs:168-173); `difficulty : usize`. -/
structure Blockchain where
  chain : List Block
  difficulty : Nat
  pending_transactions : List Transaction
deriving DecidableEq

/-- `Blockchain::new` (src/src/main.rs:176-190): build and seal the genesis
block holding the single unsigned `"System" → "Creator"` transaction of
amount `50.0` (rendered `"50"`), previous hash `"0"`. -/
def Blockchain.new (sha256 : String → List Nat) (difficulty : Nat)
    (timestamp : Int) (fuel : Nat) : MineOut Blockchain :=
  let genesis_tx : Transaction :=
    { sender := "System", receiver := "Creator", amount := "50", signature := none }
  let genesis_block := Block.new sha256 0 [genesis_tx] "0" timestamp
  match genesis_block.mine sha256 difficulty fuel with
  | MineOut.ok b =>
    MineOut.ok { chain := [b], difficulty := difficulty, pending_transactions := [] }
  | MineOut.panic => MineOut.panic
  | MineOut.fuelOut => MineOut.fuelOut

/-- `Blockchain::add_transaction` (src/src/main.rs:192-198).  The Rust method
mutates `self` and returns `Result<(), &str>`; the model returns the new state
together with that result. -/
def Blockchain.add_transaction {K : Type} (E : Ed25519Model K)
    (sha256 : String → List Nat) (bc : Blockchain) (tx : Transaction) :
    Blockchain × Except String Unit :=
  if tx.is_valid E sha256 then
    ({ bc with pending_transactions := bc.pending_transactions ++ [tx] }, Except.ok ())
  else (bc, Except.error "Invalid transaction signature")

/-- `Blockchain::mine_pending_transactions` (src/src/main.rs:200-215).
`self.chain.last().unwrap()` on an empty chain would panic (modelled
`MineOut.panic`, unreachable from `Blockchain.new`); `self.chain.len() as u32`
truncates the new block's index to 32 bits. -/
def Blockchain.mine_pending_transactions (sha256 : String → List Nat)
    (bc : Blockchain) (timestamp : Int) (fuel : Nat) :
    MineOut (Blockchain × Except String Unit) :=
  if bc.pending_transactions.isEmpty then
    MineOut.ok (bc, Except.error "No transactions to mine")
  else if hchain : bc.chain = [] then MineOut.panic
  else
    let new_block :=
      Block.new sha256 (bc.chain.length % 2 ^ 32) bc.pending_transactions
        (bc.chain.getLast hchain).hash timestamp
    match new_block.mine sha256 bc.difficulty fuel with
    | MineOut.ok b =>
      MineOut.ok
        ({ bc with chain := bc.chain ++ [b], pending_transactions := [] }, Except.ok ())
    | MineOut.panic => MineOut.panic
    | MineOut.fuelOut => MineOut.fuelOut

/-- States reachable from `bc0` by any sequence of returning
`add_transaction` / `mine_pending_transactions` calls (a mining call that
panics or never terminates yields no successor state). -/
inductive Reaches {K : Type} (E : Ed25519Model K) (sha256 : String → List Nat) :
    Blockchain → Blockchain → Prop where
  | refl (bc : Blockchain) : Reaches E sha256 bc bc
  | add (bc bc' bc'' : Blockchain) (tx : Transaction) (r : Except String Unit) :
      Reaches E sha256 bc bc' → bc'.add_transaction E sha256 tx = (bc'', r) →
      Reaches E sha256 bc bc''
  | mine (bc bc' bc'' : Blockchain) (ts : Int) (fuel : Nat) (r : Except String Unit) :
      Reaches E sha256 bc bc' →
      bc'.mine_pending_transactions sha256 ts fuel = MineOut.ok (bc'', r) →
      Reaches E sha256 bc bc''

/-! ### Invariants and derived notions -/

/-- Number of leading `'0'` characters of a hash string. -/
def leadingZeroCount (s : String) : Nat :=
  (s.data.takeWhile fun c => c == '0').length

/-- The ledger invariant of the spec (§3, LedgerEngine) on a chain and a
difficulty, with the block index taken modulo `2 ^ 32` as the `as u32` cast
forces. -/
def chainInvOn (chain : List Block) (difficulty : Nat) : Prop :=
  chain ≠ [] ∧
  (∀ i (hi : i < chain.length), chain[i].header.index = i % 2 ^ 32) ∧
  (∀ i (hi : i < chain.length), 0 < i →
    chain[i].header.previous_hash = chain[i - 1].hash) ∧
  (∀ b ∈ chain, difficulty ≤ leadingZeroCount b.hash)

/-- The ledger invariant of an engine state. -/
def chainInv (bc : Blockchain) : Prop :=
  chainInvOn bc.chain bc.difficulty

/-! ### Spec-side Merkle reduction (for the refinement comparison) -/

/-- Modelled from the spec (§4.2 MerkleAggregator), for comparison with the
source translation `Block.calculate_merkle_root`: "pair adjacent hashes
left-to-right and hash their UTF-8 concatenation with SHA-256"; "when the
current level has an odd number of nodes, duplicate the last node ... before
pairing".  The odd leftover node is the duplicated last node of its level. -/
def specPairUp (sha256 : String → List Nat) : List String → List String
  | [] => []
  | [a] => [hexEncode (sha256 (a ++ a))]
  | a :: b :: rest => hexEncode (sha256 (a ++ b)) :: specPairUp sha256 rest

theorem specPairUp_length (sha256 : String → List Nat) :
    ∀ hs : List String, (specPairUp sha256 hs).length = (hs.length + 1) / 2
  | [] => by simp [specPairUp]
  | [_] => by simp [specPairUp]
  | _ :: _ :: rest => by
    simp only [specPairUp, List.length_cons, specPairUp_length sha256 rest]
    omega

/-- Modelled from the spec (§4.2): reduce level by level "until exactly one
hash remains". -/
def specReduce (sha256 : String → List Nat) (hs : List String) : String :=
  if h : 1 < hs.length then specReduce sha256 (specPairUp sha256 hs)
  else hs.headD ""
termination_by hs.length
decreasing_by
  simp only [specPairUp_length]
  omega

/-- Modelled from the spec (§4.2): "Empty input ⇒ sentinel `0`", otherwise the
pairwise reduction of the ordered leaf hashes. -/
def specMerkleRoot (sha256 : String → List Nat) (leaves : List String) : String :=
  if leaves = [] then "0" else specReduce sha256 leaves

/-! ### Concrete instances used by witnesses and counterexamples -/

/-- A concrete stand-in digest function: every digest is 32 zero bytes. -/
def sha0 : String → List Nat := fun _ => List.replicate 32 0

/-- A concrete stand-in digest function whose digest depends on the input
length, so distinct reduction shapes give distinct roots. -/
def shaLen : String → List Nat := fun s => List.replicate 32 (s.length % 256)

/-- A concrete Ed25519 stand-in over unit signing keys: zero keys and
signatures, verification always succeeds. -/
def E0 : Ed25519Model Unit :=
  { sign := fun _ _ => List.replicate 64 0
    pubkeyBytes := fun _ => List.replicate 32 0
    fromBytesOk := fun _ => true
    verify := fun _ _ _ => true }

/-- Sixty-four zero characters: the `sha0` hash string. -/
def z64 : String := String.mk (List.replicate 64 '0')

/-- The genesis transaction of `Blockchain::new`. -/
def genesisTx : Transaction :=
  { sender := "System", receiver := "Creator", amount := "50", signature := none }

/-- The genesis block `Blockchain::new(0)` seals under `sha0` at timestamp 0. -/
def gBlock : Block :=
  { header := { index := 0, timestamp := 0, merkle_root := z64, previous_hash := "0", nonce := 0 }
    hash := z64
    transactions := [genesisTx] }

/-- The state `Blockchain::new(0)` produces under `sha0` at timestamp 0. -/
def bcW : Blockchain :=
  { chain := [gBlock]
    difficulty := 0
    pending_transactions := [] }

/-- A transaction that fails verification: non-hex sender, no signature. -/
def txBad : Transaction :=
  { sender := "xy", receiver := "r", amount := "1", signature := none }

/-- A `"System"`-sender transaction with a garbage signature. -/
def txSys : Transaction :=
  { sender := "System", receiver := "x", amount := "1", signature := some "zz" }

/-- A small concrete transaction. -/
def txA : Transaction :=
  { sender := "a", receiver := "b", amount := "1", signature := none }

/-- A transaction with the same concatenated data as `txA` but a different
field split. -/
def txA2 : Transaction :=
  { sender := "ab", receiver := "", amount := "1", signature := none }

/-- A transaction whose sender is the hex of the `E0` public key. -/
def txPk : Transaction :=
  { sender := hexEncode (List.replicate 32 0), receiver := "r", amount := "1",
    signature := none }

/-! ### Helper lemmas: hex codec -/

theorem hexDigitVal_digitChar : ∀ n < 16, hexDigitVal (Nat.digitChar n) = some n := by
  decide

theorem hexDecodeList_hexEncodeList :
    ∀ bs : List Nat, (∀ b ∈ bs, b < 256) → hexDecodeList (hexEncodeList bs) = some bs
  | [], _ => rfl
  | b :: rest, h => by
    have hb : b < 256 := h b (List.mem_cons_self b rest)
    have hrest : ∀ x ∈ rest, x < 256 := fun x hx => h x (List.mem_cons_of_mem b hx)
    have hdiv : b / 16 < 16 := by omega
    have hmod : b % 16 < 16 := by omega
    simp only [hexEncodeList, hexDecodeList, hexDigitVal_digitChar _ hdiv,
      hexDigitVal_digitChar _ hmod, hexDecodeList_hexEncodeList rest hrest,
      Option.bind_eq_bind, Option.some_bind]
    have : 16 * (b / 16) + b % 16 = b := by omega
    simp [this]

theorem hexDecode_hexEncode (bs : List Nat) (h : ∀ b ∈ bs, b < 256) :
    hexDecode (hexEncode bs) = some bs := by
  simpa [hexDecode, hexEncode] using hexDecodeList_hexEncodeList bs h

theorem hexEncodeList_length : ∀ bs : List Nat, (hexEncodeList bs).length = 2 * bs.length
  | [] => rfl
  | _ :: rest => by
    simp only [hexEncodeList, List.length_cons, hexEncodeList_length rest]
    omega

theorem hexEncode_data_length (bs : List Nat) : (hexEncode bs).data.length = 2 * bs.length := by
  simp [hexEncode, hexEncodeList_length]

theorem hexEncode_length (bs : List Nat) : (hexEncode bs).length = 2 * bs.length := by
  simp [hexEncode, String.length, hexEncodeList_length]

/-! ### Helper lemmas: leading zeros -/

theorem le_takeWhile_zero_length :
    ∀ (d : Nat) (l : List Char), d ≤ l.length → l.take d = List.replicate d '0' →
      d ≤ (l.takeWhile fun c => c == '0').length
  | 0, _, _, _ => Nat.zero_le _
  | d + 1, [], hlen, _ => by simp at hlen
  | d + 1, c :: l, hlen, htake => by
    simp only [List.take_succ_cons, List.replicate_succ, List.cons.injEq] at htake
    obtain ⟨hc, htl⟩ := htake
    subst hc
    simp only [List.takeWhile_cons, beq_self_eq_true, if_true, List.length_cons]
    have := le_takeWhile_zero_length d l (by simpa using Nat.le_of_succ_le_succ hlen) htl
    omega

theorem le_leadingZeroCount (s : String) (d : Nat) (hlen : d ≤ s.data.length)
    (htake : s.data.take d = List.replicate d '0') : d ≤ leadingZeroCount s :=
  le_takeWhile_zero_length d s.data hlen htake

/-! ### Helper lemmas: the mining loop -/

theorem mineLoop_ok (sha256 : String → List Nat) (difficulty : Nat) (fuel : Nat) :
    ∀ (header : BlockHeader) (hash : String) (h2 : BlockHeader) (s2 : String),
      mineLoop sha256 difficulty fuel header hash = MineOut.ok (h2, s2) →
      difficulty ≤ s2.data.length ∧
      s2.data.take difficulty = List.replicate difficulty '0' ∧
      h2.index = header.index ∧ h2.timestamp = header.timestamp ∧
      h2.merkle_root = header.merkle_root ∧ h2.previous_hash = header.previous_hash ∧
      (hash = header.calculate_hash sha256 → s2 = h2.calculate_hash sha256) ∧
      (difficulty = 0 → h2 = header ∧ s2 = hash) := by
  induction fuel with
  | zero =>
    intro header hash h2 s2 hrun
    rw [mineLoop.eq_def] at hrun
    by_cases hpanic : hash.data.length < difficulty
    · rw [if_pos hpanic] at hrun
      exact MineOut.noConfusion hrun
    · rw [if_neg hpanic] at hrun
      by_cases hdone : hash.data.take difficulty = List.replicate difficulty '0'
      · rw [if_pos hdone] at hrun
        simp only [MineOut.ok.injEq, Prod.mk.injEq] at hrun
        obtain ⟨rfl, rfl⟩ := hrun
        exact ⟨by omega, hdone, rfl, rfl, rfl, rfl, fun h => h, fun _ => ⟨rfl, rfl⟩⟩
      · rw [if_neg hdone] at hrun
        exact MineOut.noConfusion hrun
  | succ fuel ih =>
    intro header hash h2 s2 hrun
    rw [mineLoop.eq_def] at hrun
    by_cases hpanic : hash.data.length < difficulty
    · rw [if_pos hpanic] at hrun
      exact MineOut.noConfusion hrun
    · rw [if_neg hpanic] at hrun
      by_cases hdone : hash.data.take difficulty = List.replicate difficulty '0'
      · rw [if_pos hdone] at hrun
        simp only [MineOut.ok.injEq, Prod.mk.injEq] at hrun
        obtain ⟨rfl, rfl⟩ := hrun
        exact ⟨by omega, hdone, rfl, rfl, rfl, rfl, fun h => h, fun _ => ⟨rfl, rfl⟩⟩
      · rw [if_neg hdone] at hrun
        have step := ih { header with nonce := (header.nonce + 1) % 2 ^ 64 }
          (BlockHeader.calculate_hash sha256 { header with nonce := (header.nonce + 1) % 2 ^ 64 })
          h2 s2 hrun
        refine ⟨step.1, step.2.1, step.2.2.1, step.2.2.2.1, step.2.2.2.2.1, step.2.2.2.2.2.1,
          fun _ => step.2.2.2.2.2.2.1 rfl, fun hd0 => absurd ?_ hdone⟩
        subst hd0
        simp

theorem Block.mine_ok (sha256 : String → List Nat) (difficulty fuel : Nat) (b b2 : Block)
    (hrun : b.mine sha256 difficulty fuel = MineOut.ok b2)
    (hcoh : b.hash = b.header.calculate_hash sha256) :
    difficulty ≤ leadingZeroCount b2.hash ∧
    b2.hash.data.take difficulty = List.replicate difficulty '0' ∧
    b2.header.index = b.header.index ∧ b2.header.timestamp = b.header.timestamp ∧
    b2.header.merkle_root = b.header.merkle_root ∧
    b2.header.previous_hash = b.header.previous_hash ∧
    b2.hash = b2.header.calculate_hash sha256 ∧
    b2.transactions = b.transactions ∧
    (difficulty = 0 → b2 = b) := by
  unfold Block.mine at hrun
  match hml : mineLoop sha256 difficulty fuel b.header b.hash with
  | MineOut.ok (h2, s2) =>
    rw [hml] at hrun
    simp only [MineOut.ok.injEq] at hrun
    subst hrun
    obtain ⟨hlen, htake, hidx, hts, hmr, hph, hcoh2, hd0⟩ :=
      mineLoop_ok sha256 difficulty fuel b.header b.hash h2 s2 hml
    refine ⟨le_leadingZeroCount _ _ hlen htake, htake, hidx, hts, hmr, hph, hcoh2 hcoh, rfl, ?_⟩
    intro h0
    obtain ⟨rfl, rfl⟩ := hd0 h0
    rfl
  | MineOut.panic => rw [hml] at hrun; simp at hrun
  | MineOut.fuelOut => rw [hml] at hrun; simp at hrun

/-! ### Helper lemmas: engine state -/

theorem chainInv_of_eq (bc bc2 : Blockchain) (hc : bc2.chain = bc.chain)
    (hd : bc2.difficulty = bc.difficulty) (h : chainInv bc) : chainInv bc2 := by
  unfold chainInv
  rw [hc, hd]
  exact h

theorem add_transaction_state {K : Type} (E : Ed25519Model K) (sha256 : String → List Nat)
    (bc bc2 : Blockchain) (tx : Transaction) (r : Except String Unit)
    (h : bc.add_transaction E sha256 tx = (bc2, r)) :
    bc2.chain = bc.chain ∧ bc2.difficulty = bc.difficulty := by
  unfold Blockchain.add_transaction at h
  by_cases hv : tx.is_valid E sha256 = true
  · rw [if_pos hv] at h
    cases h
    exact ⟨rfl, rfl⟩
  · rw [if_neg hv] at h
    cases h
    exact ⟨rfl, rfl⟩

theorem Blockchain.new_ok (sha256 : String → List Nat) (d : Nat) (ts : Int) (fuel : Nat)
    (bc : Blockchain) (h : Blockchain.new sha256 d ts fuel = MineOut.ok bc) :
    chainInv bc ∧ bc.difficulty = d ∧ bc.pending_transactions = [] := by
  simp only [Blockchain.new] at h
  match hm : (Block.new sha256 0
      [{ sender := "System", receiver := "Creator", amount := "50", signature := none }]
      "0" ts).mine sha256 d fuel with
  | MineOut.ok b =>
    rw [hm] at h
    simp only [MineOut.ok.injEq] at h
    subst h
    obtain ⟨hzero, -, hidx, -, -, -, -, -, -⟩ :=
      Block.mine_ok sha256 d fuel _ b hm rfl
    unfold chainInv chainInvOn
    refine ⟨⟨by simp, ?_, ?_, ?_⟩, rfl, rfl⟩
    · intro i hi
      simp only [List.length_cons, List.length_nil] at hi
      have hi0 : i = 0 := by omega
      subst hi0
      simp [hidx, Block.new]
    · intro i hi hpos
      simp only [List.length_cons, List.length_nil] at hi
      omega
    · intro x hx
      simp only [List.mem_singleton] at hx
      subst hx
      exact hzero
  | MineOut.panic => rw [hm] at h; exact absurd h (by simp)
  | MineOut.fuelOut => rw [hm] at h; exact absurd h (by simp)

theorem mine_pending_ok (sha256 : String → List Nat) (bc bc2 : Blockchain) (ts : Int)
    (fuel : Nat) (r : Except String Unit) (hinv : chainInv bc)
    (h : bc.mine_pending_transactions sha256 ts fuel = MineOut.ok (bc2, r)) :
    chainInv bc2 ∧ bc2.difficulty = bc.difficulty := by
  obtain ⟨hne, hinvIdx, hinvPrev, hinvZero⟩ := hinv
  simp only [Blockchain.mine_pending_transactions] at h
  by_cases hemp : bc.pending_transactions.isEmpty = true
  · rw [if_pos hemp] at h
    simp only [MineOut.ok.injEq, Prod.mk.injEq] at h
    obtain ⟨h1, -⟩ := h
    subst h1
    exact ⟨⟨hne, hinvIdx, hinvPrev, hinvZero⟩, rfl⟩
  · rw [if_neg hemp, dif_neg hne] at h
    cases hm : (Block.new sha256 (bc.chain.length % 2 ^ 32) bc.pending_transactions
        (bc.chain.getLast hne).hash ts).mine sha256 bc.difficulty fuel with
    | ok b =>
      rw [hm] at h
      simp only [MineOut.ok.injEq, Prod.mk.injEq] at h
      obtain ⟨h1, -⟩ := h
      subst h1
      obtain ⟨hzero, -, hidx, -, -, hprev, -, -, -⟩ :=
        Block.mine_ok sha256 bc.difficulty fuel _ b hm rfl
      have hlen : 0 < bc.chain.length := List.length_pos.mpr hne
      have hsub : bc.chain.length - 1 < bc.chain.length := by omega
      have hlast : bc.chain.getLast hne = bc.chain[bc.chain.length - 1] :=
        List.getLast_eq_getElem bc.chain hne
      unfold chainInv chainInvOn
      refine ⟨⟨by simp, ?_, ?_, ?_⟩, rfl⟩
      · intro i hi
        simp only [List.length_append, List.length_cons, List.length_nil] at hi
        by_cases hilt : i < bc.chain.length
        · rw [List.getElem_append_left hilt]
          exact hinvIdx i hilt
        · have hieq : i = bc.chain.length := by omega
          subst hieq
          have happ : bc.chain.length < (bc.chain ++ [b]).length := by simp
          have hb : (bc.chain ++ [b])[bc.chain.length] = b := by simp
          rw [hb, hidx]
          simp [Block.new]
      · intro i hi hpos
        simp only [List.length_append, List.length_cons, List.length_nil] at hi
        by_cases hilt : i < bc.chain.length
        · rw [List.getElem_append_left hilt, List.getElem_append_left (by omega)]
          exact hinvPrev i hilt hpos
        · have hieq : i = bc.chain.length := by omega
          subst hieq
          have happ : bc.chain.length < (bc.chain ++ [b]).length := by simp
          have hb : (bc.chain ++ [b])[bc.chain.length] = b := by simp
          rw [hb, List.getElem_append_left hsub, hprev, hlast]
          simp [Block.new]
      · intro x hx
        simp only [List.mem_append, List.mem_singleton] at hx
        cases hx with
        | inl hx => exact hinvZero x hx
        | inr hx =>
          subst hx
          exact hzero
    | panic => rw [hm] at h; exact absurd h (by simp)
    | fuelOut => rw [hm] at h; exact absurd h (by simp)

theorem reaches_inv {K : Type} (E : Ed25519Model K) (sha256 : String → List Nat)
    (bc0 bc : Blockchain) (hr : Reaches E sha256 bc0 bc) (h0 : chainInv bc0) :
    chainInv bc ∧ bc.difficulty = bc0.difficulty := by
  induction hr with
  | refl => exact ⟨h0, rfl⟩
  | add bc' bc'' tx r _ hstep ih =>
    obtain ⟨hc, hd⟩ := add_transaction_state E sha256 bc' bc'' tx r hstep
    exact ⟨chainInv_of_eq bc' bc'' hc hd ih.1, hd.trans ih.2⟩
  | mine bc' bc'' ts fuel r _ hstep ih =>
    obtain ⟨hinv2, hd⟩ := mine_pending_ok sha256 bc' bc'' ts fuel r ih.1 hstep
    exact ⟨hinv2, hd.trans ih.2⟩

/-! ### Helper lemmas: zero difficulty and concrete runs -/

theorem mineLoop_zero (sha256 : String → List Nat) (fuel : Nat) (header : BlockHeader)
    (hash : String) : mineLoop sha256 0 fuel header hash = MineOut.ok (header, hash) := by
  unfold mineLoop
  simp

theorem Block.mine_zero (b : Block) (sha256 : String → List Nat) (fuel : Nat) :
    b.mine sha256 0 fuel = MineOut.ok b := by
  unfold Block.mine
  rw [mineLoop_zero]

theorem is_valid_of_system {K : Type} (E : Ed25519Model K) (sha256 : String → List Nat)
    (tx : Transaction) (h : tx.sender = "System") : tx.is_valid E sha256 = true := by
  unfold Transaction.is_valid
  rw [if_pos h]

theorem add_transaction_of_valid {K : Type} (E : Ed25519Model K) (sha256 : String → List Nat)
    (bc : Blockchain) (tx : Transaction) (hv : tx.is_valid E sha256 = true) :
    bc.add_transaction E sha256 tx =
      ({ bc with pending_transactions := bc.pending_transactions ++ [tx] }, Except.ok ()) := by
  unfold Blockchain.add_transaction
  rw [if_pos hv]

theorem mine_pending_zero (sha256 : String → List Nat) (bc : Blockchain) (ts : Int)
    (fuel : Nat) (hd : bc.difficulty = 0) (hpne : bc.pending_transactions ≠ [])
    (hcne : bc.chain ≠ []) :
    bc.mine_pending_transactions sha256 ts fuel =
      MineOut.ok
        ({ bc with
            chain := bc.chain ++ [Block.new sha256 (bc.chain.length % 2 ^ 32)
              bc.pending_transactions (bc.chain.getLast hcne).hash ts]
            pending_transactions := [] }, Except.ok ()) := by
  unfold Blockchain.mine_pending_transactions
  rw [if_neg (by simp [hpne]), dif_neg hcne, hd]
  simp [Block.mine_zero]

theorem reach_length (n : Nat) : ∃ bc : Blockchain,
    Reaches E0 sha0 bcW bc ∧ bc.chain.length = n + 1 ∧ bc.difficulty = 0 := by
  induction n with
  | zero => exact ⟨bcW, Reaches.refl bcW, rfl, rfl⟩
  | succ n ih =>
    obtain ⟨bc, hr, hlen, hd⟩ := ih
    have hcne : bc.chain ≠ [] := by
      intro hnil
      rw [hnil] at hlen
      simp at hlen
    have hadd := add_transaction_of_valid E0 sha0 bc txSys (is_valid_of_system E0 sha0 txSys rfl)
    have hr1 : Reaches E0 sha0 bcW
        { bc with pending_transactions := bc.pending_transactions ++ [txSys] } :=
      Reaches.add bcW bc _ txSys (Except.ok ()) hr hadd
    have hmine := mine_pending_zero sha0
      { bc with pending_transactions := bc.pending_transactions ++ [txSys] } 0 0
      hd (by simp) hcne
    refine ⟨_, Reaches.mine bcW _ _ 0 0 (Except.ok ()) hr1 hmine, ?_, hd⟩
    simp [hlen]

/-! ### Helper lemmas: Merkle reduction refinement -/

theorem specPairUp_eq_merkleLevel (sha256 : String → List Nat) :
    ∀ hs : List String, specPairUp sha256 hs = merkleLevel sha256 hs
  | [] => by
    unfold merkleLevel
    rw [if_neg (by simp)]
    rfl
  | [a] => by
    unfold merkleLevel
    rw [if_pos (by simp)]
    rfl
  | a :: b :: rest => by
    have ih := specPairUp_eq_merkleLevel sha256 rest
    have hlc : (a :: b :: rest).length = rest.length + 2 := by simp
    unfold merkleLevel
    by_cases hpar : rest.length % 2 = 0
    · rw [if_neg (by rw [hlc]; omega)]
      rw [show specPairUp sha256 (a :: b :: rest)
          = hexEncode (sha256 (a ++ b)) :: specPairUp sha256 rest from rfl]
      rw [show pairHashes sha256 (a :: b :: rest)
          = hexEncode (sha256 (a ++ b)) :: pairHashes sha256 rest from rfl]
      rw [ih]
      unfold merkleLevel
      rw [if_neg (by omega)]
    · rw [if_pos (by rw [hlc]; omega)]
      have hrne : rest ≠ [] := by
        intro hnil
        rw [hnil] at hpar
        simp at hpar
      have hlast : (a :: b :: rest).getLastD "" = rest.getLastD "" := by
        rw [List.getLastD_cons, List.getLastD_cons, List.getLastD_eq_getLast?,
          List.getLastD_eq_getLast?, List.getLast?_eq_getLast rest hrne]
        rfl
      rw [hlast]
      rw [show specPairUp sha256 (a :: b :: rest)
          = hexEncode (sha256 (a ++ b)) :: specPairUp sha256 rest from rfl]
      rw [show (a :: b :: rest) ++ [rest.getLastD ""]
          = a :: b :: (rest ++ [rest.getLastD ""]) from rfl]
      rw [show pairHashes sha256 (a :: b :: (rest ++ [rest.getLastD ""]))
          = hexEncode (sha256 (a ++ b)) :: pairHashes sha256 (rest ++ [rest.getLastD ""]) from rfl]
      rw [ih]
      unfold merkleLevel
      rw [if_pos (by omega)]

theorem merkleLoop_eq_specReduce_aux (sha256 : String → List Nat) :
    ∀ (n : Nat) (hs : List String), hs.length ≤ n →
      merkleLoop sha256 hs = specReduce sha256 hs := by
  intro n
  induction n with
  | zero =>
    intro hs hle
    have h1 : ¬1 < hs.length := by omega
    rw [merkleLoop.eq_def, specReduce.eq_def, dif_neg h1, dif_neg h1]
  | succ n ih =>
    intro hs hle
    by_cases h1 : 1 < hs.length
    · rw [merkleLoop.eq_def, specReduce.eq_def, dif_pos h1, dif_pos h1,
        specPairUp_eq_merkleLevel]
      exact ih (merkleLevel sha256 hs) (by
        have := merkleLevel_length_lt sha256 hs h1
        omega)
    · rw [merkleLoop.eq_def, specReduce.eq_def, dif_neg h1, dif_neg h1]

theorem merkleLoop_eq_specReduce (sha256 : String → List Nat) (hs : List String) :
    merkleLoop sha256 hs = specReduce sha256 hs :=
  merkleLoop_eq_specReduce_aux sha256 hs.length hs (Nat.le_refl _)

theorem calculate_merkle_root_eq_spec (sha256 : String → List Nat)
    (txs : List Transaction) :
    Block.calculate_merkle_root sha256 txs =
      specMerkleRoot sha256 (txs.map fun tx => hexEncode (tx.calculate_hash sha256)) := by
  unfold Block.calculate_merkle_root specMerkleRoot
  by_cases hnil : txs = []
  · subst hnil
    simp
  · have hne : txs.map (fun tx => hexEncode (tx.calculate_hash sha256)) ≠ [] := by
      simp [hnil]
    rw [if_neg (by simp [hnil]), if_neg hne, merkleLoop_eq_specReduce]

/-! ### Helper lemmas: singleton Merkle root and the concrete genesis state -/

theorem merkleLoop_single (sha256 : String → List Nat) (a : String) :
    merkleLoop sha256 [a] = a := by
  rw [merkleLoop.eq_def, dif_neg (by simp)]
  rfl

theorem merkle_root_single (sha256 : String → List Nat) (t : Transaction) :
    Block.calculate_merkle_root sha256 [t] = hexEncode (t.calculate_hash sha256) := by
  unfold Block.calculate_merkle_root
  rw [if_neg (by simp)]
  simp only [List.map_cons, List.map_nil]
  rw [merkleLoop_single]

theorem hexEncode_zeros : hexEncode (List.replicate 32 0) = z64 := by decide

theorem hexEncode_sha0 (s : String) : hexEncode (sha0 s) = z64 := hexEncode_zeros

theorem gBlock_new : Block.new sha0 0
    [{ sender := "System", receiver := "Creator", amount := "50", signature := none }] "0" 0
    = gBlock := by
  unfold Block.new
  simp only [merkle_root_single, Transaction.calculate_hash, BlockHeader.calculate_hash,
    hexEncode_sha0]
  rfl

theorem bcW_new : Blockchain.new sha0 0 0 0 = MineOut.ok bcW := by
  simp only [Blockchain.new]
  rw [gBlock_new, Block.mine_zero]
  rfl

/-! ### Claim theorems -/

/-- C7: for every transaction with `sender == "System"`, `is_valid` returns
`true`, regardless of whether a signature is present and regardless of its
contents (src/src/main.rs:40-42). -/
theorem system_sender_always_valid {K : Type} (E : Ed25519Model K)
    (sha256 : String → List Nat) (tx : Transaction) (h : tx.sender = "System") :
    tx.is_valid E sha256 = true :=
  is_valid_of_system E sha256 tx h

/-- Witness for C7 at the concrete `"System"` transaction `txSys`, which
carries a garbage signature. -/
theorem system_sender_always_valid_witness :
    txSys.sender = "System" ∧ txSys.is_valid E0 sha0 = true :=
  ⟨rfl, system_sender_always_valid E0 sha0 txSys rfl⟩

/-- C10: for every engine state and every `"System"`-sender transaction,
`add_transaction` succeeds, appends the transaction at the mempool tail and
leaves chain and difficulty unchanged — the sentinel applies to
caller-submitted transactions at any time. -/
theorem system_tx_add_succeeds {K : Type} (E : Ed25519Model K)
    (sha256 : String → List Nat) (bc : Blockchain) (tx : Transaction)
    (h : tx.sender = "System") :
    bc.add_transaction E sha256 tx =
      ({ chain := bc.chain, difficulty := bc.difficulty,
         pending_transactions := bc.pending_transactions ++ [tx] }, Except.ok ()) :=
  add_transaction_of_valid E sha256 bc tx (is_valid_of_system E sha256 tx h)

/-- Witness for C10: the signed-garbage `"System"` transaction is queued on
the concrete genesis state. -/
theorem system_tx_add_succeeds_witness :
    bcW.add_transaction E0 sha0 txSys =
      ({ chain := bcW.chain, difficulty := bcW.difficulty,
         pending_transactions := bcW.pending_transactions ++ [txSys] }, Except.ok ()) :=
  system_tx_add_succeeds E0 sha0 bcW txSys rfl

/-- C8: failure atomicity.  `add_transaction` on a transaction failing
verification returns the invalid-signature error with the state unchanged;
`mine_pending_transactions` on an empty mempool returns the empty-mempool
error with the state unchanged. -/
theorem failed_call_leaves_state {K : Type} (E : Ed25519Model K)
    (sha256 : String → List Nat) (bc : Blockchain) (tx : Transaction) (ts : Int)
    (fuel : Nat) :
    (tx.is_valid E sha256 = false →
      bc.add_transaction E sha256 tx = (bc, Except.error "Invalid transaction signature")) ∧
    (bc.pending_transactions = [] →
      bc.mine_pending_transactions sha256 ts fuel =
        MineOut.ok (bc, Except.error "No transactions to mine")) := by
  constructor
  · intro hv
    unfold Blockchain.add_transaction
    rw [if_neg (by rw [hv]; simp)]
  · intro hp
    unfold Blockchain.mine_pending_transactions
    rw [if_pos (by rw [hp]; rfl)]

/-- Witness for C8 at the concrete genesis state: rejecting the malformed
transaction `txBad` and mining the empty mempool both leave `bcW` as it is. -/
theorem failed_call_leaves_state_witness :
    (txBad.is_valid E0 sha0 = false ∧
      bcW.add_transaction E0 sha0 txBad = (bcW, Except.error "Invalid transaction signature")) ∧
    (bcW.pending_transactions = [] ∧
      bcW.mine_pending_transactions sha0 0 0 =
        MineOut.ok (bcW, Except.error "No transactions to mine")) :=
  ⟨⟨rfl, (failed_call_leaves_state E0 sha0 bcW txBad 0 0).1 rfl⟩,
   rfl, (failed_call_leaves_state E0 sha0 bcW txBad 0 0).2 rfl⟩

/-- C5: the code does not validate the difficulty.  For every difficulty
above the 64-character hash length, `Blockchain::new` reaches the
out-of-range slice `self.hash[..difficulty]` inside `Block::mine` while
sealing the genesis block and panics, instead of reporting a configuration
error. -/
theorem difficulty_over_hash_length_panics (sha256 : String → List Nat)
    (hlen : ∀ s, (sha256 s).length = 32) (difficulty : Nat) (hd : 64 < difficulty)
    (ts : Int) (fuel : Nat) :
    Blockchain.new sha256 difficulty ts fuel = MineOut.panic := by
  have hhash : (Block.new sha256 0
      [{ sender := "System", receiver := "Creator", amount := "50", signature := none }]
      "0" ts).hash.data.length = 64 := by
    simp [Block.new, BlockHeader.calculate_hash, hexEncode_data_length, hexEncode_length, hlen]
  have hmine : (Block.new sha256 0
      [{ sender := "System", receiver := "Creator", amount := "50", signature := none }]
      "0" ts).mine sha256 difficulty fuel = MineOut.panic := by
    unfold Block.mine
    unfold mineLoop
    rw [if_pos (by rw [hhash]; omega)]
  simp only [Blockchain.new]
  rw [hmine]

/-- Witness for C5: constructing the engine at difficulty 65 panics. -/
theorem difficulty_over_hash_length_panics_witness :
    Blockchain.new sha0 65 0 0 = MineOut.panic :=
  difficulty_over_hash_length_panics sha0 (fun _ => by simp [sha0]) 65 (by omega) 0 0

set_option maxRecDepth 4000 in
/-- C4 counterexample: under the length-sensitive digest `shaLen`, the Merkle
root of the one-element list `[txA]` is not the hash of the leaf concatenated
with itself — the `while hashes.len() > 1` loop never runs, so no
duplication happens at the single-leaf level. -/
theorem merkle_single_leaf_cex :
    Block.calculate_merkle_root shaLen [txA] ≠
      hexEncode (shaLen (hexEncode (txA.calculate_hash shaLen) ++
        hexEncode (txA.calculate_hash shaLen))) := by
  rw [merkle_root_single]
  decide

/-- C4 (amended): for every one-element transaction list `[t]`, the Merkle
root is exactly `t`'s transaction hash in lowercase hex — the last-leaf
duplication is not applied at the single-leaf level
(src/src/main.rs:140-155). -/
theorem merkle_single_leaf (sha256 : String → List Nat) (t : Transaction) :
    Block.calculate_merkle_root sha256 [t] = hexEncode (t.calculate_hash sha256) :=
  merkle_root_single sha256 t

/-- C9: the Merkle reduction returns the sentinel `"0"` on the empty list;
on any list it computes the spec's level-by-level reduction (duplicating the
last node of any odd level with more than one node) of the ordered leaf-hash
sequence; hence the root depends only on that ordered sequence. -/
theorem merkle_reduction_spec (sha256 : String → List Nat) :
    Block.calculate_merkle_root sha256 [] = "0" ∧
    (∀ txs : List Transaction, Block.calculate_merkle_root sha256 txs =
      specMerkleRoot sha256 (txs.map fun tx => hexEncode (tx.calculate_hash sha256))) ∧
    (∀ txs txs2 : List Transaction,
      txs.map (fun tx => hexEncode (tx.calculate_hash sha256)) =
        txs2.map (fun tx => hexEncode (tx.calculate_hash sha256)) →
      Block.calculate_merkle_root sha256 txs = Block.calculate_merkle_root sha256 txs2) := by
  refine ⟨by unfold Block.calculate_merkle_root; simp, calculate_merkle_root_eq_spec sha256, ?_⟩
  intro txs txs2 hmap
  rw [calculate_merkle_root_eq_spec, calculate_merkle_root_eq_spec, hmap]

/-- Witness for C9: two transaction lists with distinct field splits but
identical leaf-hash sequences get the same root. -/
theorem merkle_reduction_spec_witness :
    ([txA, txSys].map (fun tx => hexEncode (tx.calculate_hash sha0)) =
      [txA2, txSys].map (fun tx => hexEncode (tx.calculate_hash sha0))) ∧
    Block.calculate_merkle_root sha0 [txA, txSys] =
      Block.calculate_merkle_root sha0 [txA2, txSys] :=
  ⟨by decide, (merkle_reduction_spec sha0).2.2 [txA, txSys] [txA2, txSys] (by decide)⟩

/-- C2: sealing postcondition.  When `mine(difficulty)` returns on a freshly
constructed block, the first `difficulty` hex characters of the final hash
are `'0'` and the hash equals `calculate_hash()` of the final header; for
`difficulty = 0` the block is returned unchanged with `nonce = 0` (and
sealing at difficulty 0 always returns immediately). -/
theorem mine_postcondition (sha256 : String → List Nat) (index : Nat)
    (txs : List Transaction) (prev : String) (ts : Int) (difficulty fuel : Nat)
    (b2 : Block)
    (hrun : (Block.new sha256 index txs prev ts).mine sha256 difficulty fuel = MineOut.ok b2) :
    b2.hash.data.take difficulty = List.replicate difficulty '0' ∧
    b2.hash = b2.header.calculate_hash sha256 ∧
    (difficulty = 0 → b2 = Block.new sha256 index txs prev ts ∧ b2.header.nonce = 0) ∧
    (Block.new sha256 index txs prev ts).mine sha256 0 fuel =
      MineOut.ok (Block.new sha256 index txs prev ts) := by
  obtain ⟨-, htake, -, -, -, -, hcoh, -, hd0⟩ :=
    Block.mine_ok sha256 difficulty fuel _ b2 hrun rfl
  refine ⟨htake, hcoh, ?_, Block.mine_zero _ sha256 fuel⟩
  intro h0
  refine ⟨hd0 h0, ?_⟩
  rw [hd0 h0]
  simp [Block.new]

/-- Witness for C2: the all-zero digest block seals at difficulty 2 with no
nonce increment. -/
theorem mine_postcondition_witness :
    ((Block.new sha0 5 [] "p" 7).mine sha0 2 0 = MineOut.ok (Block.new sha0 5 [] "p" 7)) ∧
    (Block.new sha0 5 [] "p" 7).hash.data.take 2 = List.replicate 2 '0' :=
  ⟨by decide, (mine_postcondition sha0 5 [] "p" 7 2 0 _ (by decide)).1⟩

/-- C6: verification fails closed (src/src/main.rs:38-76).  For every
non-`"System"` transaction: a missing signature, a non-hex sender, a decoded
sender of the wrong size, a rejected key construction, a non-hex signature,
or a signature of the wrong size each make `is_valid` return `false`; the
embedding `Transaction.is_valid` is a total boolean function, so no branch
escapes with an exception. -/
theorem is_valid_fails_closed {K : Type} (E : Ed25519Model K)
    (sha256 : String → List Nat) (tx : Transaction) (hns : tx.sender ≠ "System") :
    (tx.signature = none → tx.is_valid E sha256 = false) ∧
    (hexDecode tx.sender = none → tx.is_valid E sha256 = false) ∧
    (∀ pk, hexDecode tx.sender = some pk → pk.length ≠ 32 →
      tx.is_valid E sha256 = false) ∧
    (∀ pk, hexDecode tx.sender = some pk → E.fromBytesOk pk = false →
      tx.is_valid E sha256 = false) ∧
    (∀ s, tx.signature = some s → hexDecode s = none → tx.is_valid E sha256 = false) ∧
    (∀ s sig, tx.signature = some s → hexDecode s = some sig → sig.length ≠ 64 →
      tx.is_valid E sha256 = false) := by
  unfold Transaction.is_valid
  rw [if_neg hns]
  refine ⟨?_, ?_, ?_, ?_, ?_, ?_⟩
  · intro hsig
    rw [hsig]
  · intro hdec
    cases hsig : tx.signature with
    | none => rfl
    | some s => rw [hdec]
  · intro pk hdec hlen
    cases hsig : tx.signature with
    | none => rfl
    | some s =>
      rw [hdec]
      simp [hlen]
  · intro pk hdec hfb
    cases hsig : tx.signature with
    | none => rfl
    | some s =>
      rw [hdec]
      by_cases hlen : pk.length = 32
      · simp [hlen, hfb]
      · simp [hlen]
  · intro s hsig hdec
    rw [hsig]
    cases hdec2 : hexDecode tx.sender with
    | none => rfl
    | some pk =>
      by_cases hlen : pk.length = 32
      · by_cases hfb : E.fromBytesOk pk = true
        · simp [hlen, hfb, hdec]
        · simp [hlen, hfb]
      · simp [hlen]
  · intro s sig hsig hdec hlen64
    rw [hsig]
    cases hdec2 : hexDecode tx.sender with
    | none => rfl
    | some pk =>
      by_cases hlen : pk.length = 32
      · by_cases hfb : E.fromBytesOk pk = true
        · simp [hlen, hfb, hdec, hlen64]
        · simp [hlen, hfb]
      · simp [hlen]

/-- Witness for C6 at `txBad` (non-hex sender of odd length, no signature). -/
theorem is_valid_fails_closed_witness :
    txBad.sender ≠ "System" ∧ txBad.signature = none ∧ txBad.is_valid E0 sha0 = false :=
  ⟨by decide, rfl, (is_valid_fails_closed E0 sha0 txBad (by decide)).1 rfl⟩

/-- C3: sign/verify round-trip.  For every transaction whose sender is the
lowercase hex of the public key of a valid Ed25519 signing key (one whose
keys and signatures are well-formed bytes and whose signatures verify),
`is_valid` returns `true` after `sign` (src/src/main.rs:31-35, 38-76). -/
theorem sign_then_is_valid {K : Type} (E : Ed25519Model K)
    (sha256 : String → List Nat) (k : K) (tx : Transaction)
    (hsender : tx.sender = hexEncode (E.pubkeyBytes k))
    (hpklen : (E.pubkeyBytes k).length = 32)
    (hpkbytes : ∀ b ∈ E.pubkeyBytes k, b < 256)
    (hpkok : E.fromBytesOk (E.pubkeyBytes k) = true)
    (hsiglen : ∀ m, (E.sign k m).length = 64)
    (hsigbytes : ∀ m, ∀ b ∈ E.sign k m, b < 256)
    (hverify : ∀ m, E.verify (E.pubkeyBytes k) m (E.sign k m) = true) :
    (tx.sign E sha256 k).is_valid E sha256 = true := by
  unfold Transaction.sign Transaction.is_valid
  simp only [Transaction.calculate_hash, Transaction.txData]
  by_cases hsys : tx.sender = "System"
  · rw [if_pos hsys]
  · rw [if_neg hsys, hsender]
    rw [hexDecode_hexEncode (E.pubkeyBytes k) hpkbytes]
    rw [hexDecode_hexEncode _
      (hsigbytes (sha256 (hexEncode (E.pubkeyBytes k) ++ tx.receiver ++ tx.amount)))]
    simp [hpklen, hpkok, hsiglen, hverify]

theorem replicate64_bytes : ∀ b ∈ List.replicate 64 (0 : Nat), b < 256 := by decide

/-- Witness for C3: signing `txPk` with the `E0` unit key yields a valid
transaction. -/
theorem sign_then_is_valid_witness :
    (txPk.sign E0 sha0 ()).is_valid E0 sha0 = true :=
  sign_then_is_valid E0 sha0 () txPk rfl rfl (by decide) rfl
    (fun _ => rfl) (fun _ => replicate64_bytes) (fun _ => rfl)

/-- C1 (amended): starting from a successful `Blockchain::new` and after any
sequence of returning `add_transaction` / `mine_pending_transactions` calls,
the chain is nonempty, `chain[i].header.index = i % 2 ^ 32` (the `as u32`
cast truncates the stored index, so it equals `i` exactly only while
`i < 2 ^ 32`), `chain[i].header.previous_hash = chain[i-1].hash` for `i > 0`,
and every block's hash has at least `difficulty` leading `'0'` characters. -/
theorem chain_append_invariant {K : Type} (E : Ed25519Model K)
    (sha256 : String → List Nat) (d : Nat) (ts : Int) (fuel : Nat) (bc0 bc : Blockchain)
    (hnew : Blockchain.new sha256 d ts fuel = MineOut.ok bc0)
    (hr : Reaches E sha256 bc0 bc) :
    bc.chain ≠ [] ∧
    (∀ i (hi : i < bc.chain.length), bc.chain[i].header.index = i % 2 ^ 32) ∧
    (∀ i (hi : i < bc.chain.length), 0 < i →
      bc.chain[i].header.previous_hash = bc.chain[i - 1].hash) ∧
    (∀ b ∈ bc.chain, d ≤ leadingZeroCount b.hash) := by
  obtain ⟨hinv0, hd0, -⟩ := Blockchain.new_ok sha256 d ts fuel bc0 hnew
  have hh := reaches_inv E sha256 bc0 bc hr hinv0
  unfold chainInv chainInvOn at hh
  obtain ⟨⟨h1, h2, h3, h4⟩, hdd⟩ := hh
  refine ⟨h1, h2, h3, ?_⟩
  have hbd : bc.difficulty = d := by rw [hdd, hd0]
  rw [← hbd]
  exact h4

/-- Witness for C1 at the concrete zero-difficulty genesis state. -/
theorem chain_append_invariant_witness :
    Blockchain.new sha0 0 0 0 = MineOut.ok bcW ∧ bcW.chain ≠ [] :=
  ⟨bcW_new, (chain_append_invariant E0 sha0 0 0 0 bcW bcW bcW_new (Reaches.refl bcW)).1⟩

/-- C1 counterexample: the claim `chain[i].header.index == i` fails as
stated.  After `2 ^ 32` successful mining calls the block at position
`2 ^ 32` stores `chain.len() as u32 = 0`, not `2 ^ 32`. -/
theorem chain_index_truncation_cex :
    Blockchain.new sha0 0 0 0 = MineOut.ok bcW ∧
    ∃ bc : Blockchain, Reaches E0 sha0 bcW bc ∧
      ∃ hi : 2 ^ 32 < bc.chain.length, bc.chain[2 ^ 32].header.index ≠ 2 ^ 32 := by
  refine ⟨bcW_new, ?_⟩
  obtain ⟨bc, hr, hlen, -⟩ := reach_length (2 ^ 32)
  have hinv0 := (Blockchain.new_ok sha0 0 0 0 bcW bcW_new).1
  have hh := (reaches_inv E0 sha0 bcW bc hr hinv0).1
  unfold chainInv chainInvOn at hh
  obtain ⟨-, hidx, -, -⟩ := hh
  have hi : 2 ^ 32 < bc.chain.length := hlen ▸ Nat.lt_succ_self _
  refine ⟨bc, hr, hi, ?_⟩
  rw [hidx (2 ^ 32) hi, Nat.mod_self]
  decide

end BTCRust
